import Mathlib

/-!
Verification of the retrieval-and-ranking subsystem of legalRagBot.

This file gives a shallow embedding, in Lean, of the parts of the repository
that the specification's testable properties are about:

* `src/vector_store.py` — `FaissVectorStore` (upsert, filtered top-k search,
  tombstone delete, save/load persistence, `total_vectors`);
* `src/retry.py` — `retry_with_backoff`;
* `src/embeddings.py` — `get_embeddings` batching;
* `src/schemas.py` — `normalize_document`.

Python dicts are embedded as association lists with Python's insertion-order /
last-write-wins semantics, float arrays as lists of exact integers (the
claims under verification do not depend on the numeric domain of vector
components), and fallible Python calls as `Except` values.  The faiss flat
inner-product index is embedded as the list of upserted rows;
`faiss.normalize_L2` followed by inner product is represented exactly by
score pairs `(q·v, v·v)` denoting the real number `(q·v)/sqrt(v·v)`, compared
by sign analysis and squaring over ℤ.
-/

namespace LegalRag

/-- A Python primitive value as it appears in metadata maps and filter dicts:
`None`, a string, an int, or a bool. -/
inductive PyVal where
  | none
  | str (s : String)
  | int (n : Int)
  | bool (b : Bool)
deriving DecidableEq, Repr

/-- Python dict lookup `d.get(k)`: first matching key wins (keys of a real dict
are unique, in insertion order). -/
def pyGet (d : List (String × α)) (k : String) : Option α :=
  match d with
  | [] => Option.none
  | (k2, v) :: rest => if k2 = k then some v else pyGet rest k

/-- Python dict lookup with a default, `d.get(k, dflt)`. -/
def pyGetD (d : List (String × α)) (k : String) (dflt : α) : α :=
  (pyGet d k).getD dflt

/-- Python dict assignment `d[k] = v`: overwrites in place when the key exists,
otherwise appends at the end (insertion order). -/
def dictSet (d : List (String × α)) (k : String) (v : α) : List (String × α) :=
  match d with
  | [] => [(k, v)]
  | (k2, w) :: rest => if k2 = k then (k2, v) :: rest else (k2, w) :: dictSet rest k v

/-- A Python dict built from a sequence of key/value pairs (dict comprehension
over `zip`): later duplicates overwrite earlier ones. -/
def dictOfPairs (ps : List (String × α)) : List (String × α) :=
  ps.foldl (fun d p => dictSet d p.1 p.2) []

/-- An embedding row; entries are exact integers standing in for the float32
components.  The properties under verification are independent of the
numeric domain of the components, and integer entries keep every concrete
evaluation kernel-computable. -/
abbrev Vec := List Int

/-- Inner product of two rows (`zip` truncates at the shorter row, matching
elementwise numpy semantics on equal shapes). -/
def dot (u v : Vec) : Int :=
  ((u.zip v).map (fun p => p.1 * p.2)).sum

/-- Exact representation of the similarity score of a query `q` against a
stored row `v` after `faiss.normalize_L2`: the pair `(q·v, v·v)` denotes the
real number `(q·v)/sqrt(v·v)` (and `0` when `v = 0`, since `normalize_L2`
leaves an all-zero row unchanged). -/
abbrev ScoreRep := Int × Int

/-- Decides `val a ≤ val b` for score representations, where
`val (d, n) = d / sqrt n` (`0` when `n = 0`), exactly over the rationals:
compare signs first, then compare squares cross-multiplied by the norms. -/
def scoreValLe (a b : ScoreRep) : Bool :=
  let d1 := if a.2 = 0 then 0 else a.1
  let d2 := if b.2 = 0 then 0 else b.1
  let n1 := if a.2 = 0 then 1 else a.2
  let n2 := if b.2 = 0 then 1 else b.2
  if d1 ≤ 0 then
    if 0 ≤ d2 then true
    else decide (d2 ^ 2 * n1 ≤ d1 ^ 2 * n2)
  else
    if d2 ≤ 0 then false
    else decide (d1 ^ 2 * n2 ≤ d2 ^ 2 * n1)

/-- Candidate order used by the modelled flat index: descending score, equal
scores broken by ascending physical index.  The source leaves equal-score
order to the backend ("acceptable nondeterminism"); the model fixes this
deterministic choice. -/
def candBefore (a b : ScoreRep × Int) : Bool :=
  if scoreValLe a.1 b.1 && scoreValLe b.1 a.1 then a.2 ≤ b.2
  else scoreValLe b.1 a.1

/-- Insert into a list sorted by `le` (insertion step of insertion sort). -/
def insertBy (le : α → α → Bool) (x : α) : List α → List α
  | [] => [x]
  | y :: ys => if le x y then x :: y :: ys else y :: insertBy le x ys

/-- Insertion sort by a boolean relation; used to model the index returning
neighbors in score order. -/
def sortBy (le : α → α → Bool) (l : List α) : List α :=
  l.foldr (insertBy le) []

/-- Modelled `faiss.IndexFlatIP.search` on one query row: score every stored
row, return the `k` best `(score, index)` pairs in descending score order,
padding with index `-1` when `k` exceeds `ntotal` (padded slots carry a dummy
score; the caller skips them on seeing `-1`). -/
def indexFlatSearch (xb : List Vec) (q : Vec) (k : Nat) : List (ScoreRep × Int) :=
  let scored := xb.enum.map (fun p => (((dot q p.2, dot p.2 p.2) : ScoreRep), (p.1 : Int)))
  let hits := (sortBy candBefore scored).take k
  hits ++ List.replicate (k - hits.length) (((0, 0) : ScoreRep), -1)

/-- A metadata dict attached to one stored vector. -/
abbrev Meta := List (String × PyVal)

/-- State of `FaissVectorStore` (vector_store.py, lines 57-218).  `_index` is
the faiss index, embedded as the list of upserted rows (`indexFlatSearch`
computes scores in normalized semantics, matching `faiss.normalize_L2`
followed by `IndexFlatIP`); `_deleted_ids` is the tombstone set, kept as a
duplicate-free-by-construction list. -/
structure FaissVectorStore where
  _index : Option (List Vec)
  _ids : List String
  _metadata : List (String × Meta)
  _deleted_ids : List String
  _content_hash : Option (Option String)
deriving DecidableEq, Repr

/-- A fresh `FaissVectorStore()`: no index, empty id list, metadata and
tombstones; `_content_hash` is not yet an attribute (`getattr` default). -/
def FaissVectorStore.new : FaissVectorStore :=
  ⟨Option.none, [], [], [], Option.none⟩

/-- Embeds `FaissVectorStore.upsert` (lines 67-85): stores the (normalized) rows as a
fresh flat index, replaces the id list, and rebuilds the metadata dict from
`zip(ids, metadata)`; returns `len(ids)`.  The tombstone set is untouched. -/
def FaissVectorStore.upsert (s : FaissVectorStore) (ids : List String)
    (embeddings : List Vec) (metadata : List Meta) :
    FaissVectorStore × Nat :=
  ({ s with
      _index := some embeddings,
      _ids := ids,
      _metadata := dictOfPairs (ids.zip metadata) },
   ids.length)

/-- One search hit as returned by `FaissVectorStore.search`: the dict
`{"id": ..., "score": ..., "metadata": ...}`. -/
structure SearchResult where
  id : String
  score : ScoreRep
  metadata : Meta
deriving DecidableEq, Repr

/-- Python truthiness of the optional filters argument: `None` and the empty
dict are falsy. -/
def filtersTruthy : Option (List (String × PyVal)) → Bool
  | Option.none => false
  | some f => !f.isEmpty

/-- Embeds `all(meta.get(k) == v for k, v in filters.items())`: conjunctive exact
match over every filter pair, a missing metadata key reading as `None`. -/
def metaMatches (meta : Meta) (filters : List (String × PyVal)) : Bool :=
  filters.all (fun p => pyGetD meta p.1 PyVal.none == p.2)

/-- The result-accumulation loop of `search` (lines 101-127): skip the `-1`
padding, out-of-range indices, tombstoned ids, and (when filters are truthy)
non-matching metadata; append survivors and break once `top_k` results are
collected. -/
def searchLoop (ids : List String) (md : List (String × Meta))
    (del : List String) (filters : Option (List (String × PyVal)))
    (top_k : Nat) :
    List (ScoreRep × Int) → List SearchResult → List SearchResult
  | [], acc => acc.reverse
  | (score, idx) :: rest, acc =>
    if idx = -1 then
      searchLoop ids md del filters top_k rest acc
    else if (ids.length : Int) ≤ idx then
      searchLoop ids md del filters top_k rest acc
    else
      let vec_id := (ids.get? idx.toNat).getD ""
      if vec_id ∈ del then
        searchLoop ids md del filters top_k rest acc
      else
        let meta := pyGetD md vec_id []
        if filtersTruthy filters && !(metaMatches meta (filters.getD [])) then
          searchLoop ids md del filters top_k rest acc
        else
          let acc2 := ⟨vec_id, score, meta⟩ :: acc
          if top_k ≤ acc2.length then acc2.reverse
          else searchLoop ids md del filters top_k rest acc2

/-- Embeds `FaissVectorStore.search` (lines 87-127): empty list on an unbuilt store;
otherwise over-fetch `top_k * 5` raw neighbors when filters are truthy
(`top_k` otherwise) and run the accumulation loop. -/
def FaissVectorStore.search (s : FaissVectorStore) (query : Vec) (top_k : Nat)
    (filters : Option (List (String × PyVal))) : List SearchResult :=
  match s._index with
  | Option.none => []
  | some xb =>
    let fetch_k := if filtersTruthy filters then top_k * 5 else top_k
    searchLoop s._ids s._metadata s._deleted_ids filters top_k
      (indexFlatSearch xb query fetch_k) []

/-- One iteration of the loop body of `delete` (lines 131-134): tombstone
`vec_id` and bump the count when it is a key of the metadata dict and not
already tombstoned. -/
def deleteStep (p : FaissVectorStore × Nat) (vec_id : String) :
    FaissVectorStore × Nat :=
  if (pyGet p.1._metadata vec_id).isSome && !(p.1._deleted_ids.contains vec_id) then
    ({ p.1 with _deleted_ids := p.1._deleted_ids ++ [vec_id] }, p.2 + 1)
  else p

/-- Embeds `FaissVectorStore.delete` (lines 129-135): tombstone each id that is a key
of the metadata dict and not already tombstoned; return the count of newly
tombstoned ids. -/
def FaissVectorStore.delete (s : FaissVectorStore) (ids : List String) :
    FaissVectorStore × Nat :=
  ids.foldl deleteStep (s, 0)

/-- Embeds `FaissVectorStore.total_vectors` (lines 137-139): the physical row count of
the index (`ntotal`), `0` when no index is built. -/
def FaissVectorStore.total_vectors (s : FaissVectorStore) : Nat :=
  match s._index with
  | Option.none => 0
  | some xb => xb.length

/-- Number of non-tombstoned ids in the store's id list: the logically live
vectors, as the spec's "live (non-tombstoned) vectors". -/
def FaissVectorStore.liveCount (s : FaissVectorStore) : Nat :=
  (s._ids.filter (fun i => !(s._deleted_ids.contains i))).length

/-- Errors surfaced by the embedded Python fragments. -/
inductive PyErr where
  | valueError (msg : String)
  | nameError (missing : String)
  | attributeError (attr : String)
deriving DecidableEq, Repr

/-- The side-car record `path.meta.json` as a JSON object restricted to the
well-typed shapes the store ever writes; a `Option.none` field models a
missing key. -/
structure MetaSidecar where
  ids : Option (List String)
  metadata : Option (List (String × Meta))
  deleted_ids : Option (List String)
  content_hash : Option (Option String)
deriving DecidableEq, Repr

/-- Contents of one persisted artifact: the binary faiss blob or the side-car
JSON record. -/
inductive FileData where
  | indexFile (rows : List Vec)
  | metaFile (m : MetaSidecar)
deriving DecidableEq, Repr

/-- The directory state `save`/`load` act on: a Python-dict-like map from path
to file contents. -/
abbrev FileSystem := List (String × FileData)

/-- Embeds `FaissVectorStore.save` (lines 141-173): raises `ValueError` when no index
has been built, otherwise writes the faiss blob to `path + ".index"` and the
side-car `{ids, metadata, deleted_ids, content_hash}` to
`path + ".meta.json"`, returning the base path used.  The base path is taken
as given (the `None`-path defaulting and `os.makedirs` plumbing are not part
of any claim). -/
def FaissVectorStore.save (s : FaissVectorStore) (path : String)
    (content_hash : Option String) (fs : FileSystem) :
    Except PyErr (String × FileSystem) :=
  match s._index with
  | Option.none =>
    Except.error (PyErr.valueError
      "Cannot save: no index has been built (call upsert first)")
  | some xb =>
    let fs1 := dictSet fs (path ++ ".index") (FileData.indexFile xb)
    let fs2 := dictSet fs1 (path ++ ".meta.json")
      (FileData.metaFile ⟨some s._ids, some s._metadata, some s._deleted_ids,
        some content_hash⟩)
    Except.ok (path, fs2)

/-- Embeds `FaissVectorStore.load` (lines 175-214).  `ok (store, b)` embeds a normal
return of `b`; `error` embeds the call raising.  The module `vector_store.py`
never imports `logging`, yet `load` evaluates `logging.getLogger` both on a
structurally incomplete side-car and inside its `except` handler, so either
path raises `NameError` out of `load`: the handler catches the first
`NameError` (its tuple includes `Exception`) and then re-triggers it.  A
corrupt faiss blob or malformed JSON takes the same handler path.  Python
mutates `self._index` in place before reading the side-car; the raising case
discards that partial mutation, which no claim observes. -/
def FaissVectorStore.load (s : FaissVectorStore) (path : String)
    (fs : FileSystem) : Except PyErr (FaissVectorStore × Bool) :=
  let index_file := path ++ ".index"
  let meta_file := path ++ ".meta.json"
  match pyGet fs index_file, pyGet fs meta_file with
  | Option.none, _ => Except.ok (s, false)
  | some _, Option.none => Except.ok (s, false)
  | some (FileData.indexFile xb), some (FileData.metaFile m) =>
    if m.ids.isSome && m.metadata.isSome && m.deleted_ids.isSome then
      Except.ok
        ({ s with
            _index := some xb,
            _ids := m.ids.getD [],
            _metadata := m.metadata.getD [],
            _deleted_ids := m.deleted_ids.getD [],
            _content_hash := some (m.content_hash.getD Option.none) },
         true)
    else
      Except.error (PyErr.nameError "logging")
  | some _, some _ => Except.error (PyErr.nameError "logging")

/-- Embeds `FaissVectorStore.get_content_hash` (lines 216-218): the content hash from
the last load, `None` when the attribute was never set. -/
def FaissVectorStore.get_content_hash (s : FaissVectorStore) : Option String :=
  s._content_hash.getD Option.none

/-- The wrapper loop of `retry_with_backoff` (retry.py, lines 30-47), applied
to a call whose `n`-th outcome (0-based) is `f n`: returns the final outcome,
the number of underlying calls made, and the list of sleep delays (exact
rationals for the float arithmetic).  The second argument counts the retries
still allowed after the current call, so the top-level entry passes
`max_retries`. -/
def retryGo (f : Nat → Except E A) (base_delay max_delay : Rat) :
    Nat → Nat → Except E A × Nat × List Rat
  | attempt, 0 =>
    match f attempt with
    | Except.ok a => (Except.ok a, 1, [])
    | Except.error e => (Except.error e, 1, [])
  | attempt, left + 1 =>
    match f attempt with
    | Except.ok a => (Except.ok a, 1, [])
    | Except.error _ =>
      let delay := min (base_delay * 2 ^ attempt) max_delay
      let r := retryGo f base_delay max_delay (attempt + 1) left
      (r.1, r.2.1 + 1, delay :: r.2.2)

/-- Embeds `retry_with_backoff(max_retries, base_delay, max_delay)` wrapping a call
whose `n`-th outcome is `f n`: at most `max_retries + 1` calls, sleeping
`min(base_delay * 2 ^ attempt, max_delay)` between consecutive calls, and
re-raising the last error after exhaustion. -/
def retry_with_backoff (max_retries : Nat) (base_delay max_delay : Rat)
    (f : Nat → Except E A) : Except E A × Nat × List Rat :=
  retryGo f base_delay max_delay 0 max_retries

/-- Consecutive chunks of size `bs` (fuel-based; fuel is the list length, so
the fuel never runs out when `bs > 0`). -/
def chunksAux (bs : Nat) : Nat → List α → List (List α)
  | 0, _ => []
  | _, [] => []
  | fuel + 1, l => l.take bs :: chunksAux bs fuel (l.drop bs)

/-- The `texts[i:i+bs]` slices visited by `range(0, len(texts), bs)`. -/
def chunks (bs : Nat) (l : List α) : List (List α) :=
  chunksAux bs l.length l

/-- Embeds `get_embeddings` (embeddings.py, lines 27-44): one provider call when the
whole list fits in a single batch, otherwise `np.concatenate` over per-batch
calls; `range(0, len(texts), 0)` raises `ValueError` when `batch_size` is
zero. -/
def get_embeddings (embed : List String → List Vec) (texts : List String)
    (batch_size : Nat) : Except PyErr (List Vec) :=
  if texts.length ≤ batch_size then Except.ok (embed texts)
  else if batch_size = 0 then
    Except.error (PyErr.valueError "range() arg 3 must not be zero")
  else Except.ok ((chunks batch_size texts).map embed).flatten

/-- A top-level value of a Python document dict: a primitive, or the nested
metadata dict. -/
inductive DocVal where
  | prim (v : PyVal)
  | dict (d : List (String × PyVal))
deriving DecidableEq, Repr

/-- A Python document dict as handled by `schemas.py`. -/
abbrev PyDoc := List (String × DocVal)

/-- The fixed enumerated metadata key list of schemas.py, lines 60-63. -/
def metadata_keys : List String :=
  ["clause_type", "category", "risk_level", "notes",
   "practice_area", "jurisdiction", "citation", "position"]

/-- Embeds `normalize_document` (schemas.py, lines 52-78): returns a new dict with
the five top-level fields read via `doc.get` (absent reading as `None`) and a
nested metadata dict holding exactly the eight enumerated keys, each
defaulted to `None` when absent from the source metadata.  Raises
`AttributeError` when the stored `"metadata"` value is not a dict (Python
fails on its `.get`). -/
def normalize_document (doc : PyDoc) : Except PyErr PyDoc :=
  match (pyGet doc "metadata").getD (DocVal.dict []) with
  | DocVal.prim _ => Except.error (PyErr.attributeError "get")
  | DocVal.dict existing_metadata =>
    let normalized_metadata := metadata_keys.map
      (fun k => (k, (pyGet existing_metadata k).getD PyVal.none))
    Except.ok
      [("doc_id", (pyGet doc "doc_id").getD (DocVal.prim PyVal.none)),
       ("source", (pyGet doc "source").getD (DocVal.prim PyVal.none)),
       ("doc_type", (pyGet doc "doc_type").getD (DocVal.prim PyVal.none)),
       ("title", (pyGet doc "title").getD (DocVal.prim PyVal.none)),
       ("text", (pyGet doc "text").getD (DocVal.prim PyVal.none)),
       ("metadata", DocVal.dict normalized_metadata)]

/-- A key is present in a dict exactly when `pyGet` finds it. -/
theorem pyGet_isSome_iff (d : List (String × α)) (k : String) :
    (pyGet d k).isSome ↔ k ∈ d.map Prod.fst := by
  induction d with
  | nil => simp [pyGet]
  | cons p rest ih =>
    obtain ⟨k2, v⟩ := p
    by_cases h : k2 = k
    · subst h; simp [pyGet]
    · simp [pyGet, h, ih, Ne.symm h]

/-- Looking up the key just written. -/
theorem pyGet_dictSet_self (d : List (String × α)) (k : String) (v : α) :
    pyGet (dictSet d k v) k = some v := by
  induction d with
  | nil => simp [dictSet, pyGet]
  | cons p rest ih =>
    obtain ⟨k2, w⟩ := p
    by_cases h : k2 = k
    · subst h; simp [dictSet, pyGet]
    · simp [dictSet, pyGet, h, ih]

/-- Writing one key leaves the others unchanged. -/
theorem pyGet_dictSet_ne (d : List (String × α)) (k k1 : String) (v : α)
    (h : k1 ≠ k) : pyGet (dictSet d k v) k1 = pyGet d k1 := by
  induction d with
  | nil => simp [dictSet, pyGet, Ne.symm h]
  | cons p rest ih =>
    obtain ⟨k2, w⟩ := p
    by_cases h2 : k2 = k
    · subst h2
      simp [dictSet, pyGet, Ne.symm h]
    · simp only [dictSet, if_neg h2]
      by_cases h3 : k2 = k1
      · simp [pyGet, h3]
      · simp [pyGet, h3, ih]

/-- Writing a fresh key appends it at the end. -/
theorem dictSet_of_not_mem_keys (d : List (String × α)) (k : String) (v : α)
    (h : k ∉ d.map Prod.fst) : dictSet d k v = d ++ [(k, v)] := by
  induction d with
  | nil => rfl
  | cons p rest ih =>
    obtain ⟨k2, w⟩ := p
    simp only [List.map_cons, List.mem_cons] at h
    push_neg at h
    simp [dictSet, Ne.symm h.1, ih h.2]

/-- Folding `dictSet` over pairwise-fresh keys just appends the pairs. -/
theorem foldl_dictSet_eq_append (ps : List (String × α)) :
    ∀ d : List (String × α), (ps.map Prod.fst).Nodup →
      (∀ a ∈ ps.map Prod.fst, a ∉ d.map Prod.fst) →
      ps.foldl (fun d p => dictSet d p.1 p.2) d = d ++ ps := by
  induction ps with
  | nil => intro d _ _; simp
  | cons p rest ih =>
    intro d hnd hfresh
    simp only [List.map_cons, List.nodup_cons] at hnd
    have hfr : ∀ a ∈ rest.map Prod.fst,
        a ∉ (d ++ [(p.1, p.2)]).map Prod.fst := by
      intro a ha
      simp only [List.map_append, List.mem_append, List.map_cons, List.map_nil,
        List.mem_singleton]
      push_neg
      refine ⟨hfresh a (by simp [ha]), ?_⟩
      intro he
      exact hnd.1 (he ▸ ha)
    rw [List.foldl_cons, dictSet_of_not_mem_keys d p.1 p.2 (hfresh p.1 (by simp)),
      ih (d ++ [(p.1, p.2)]) hnd.2 hfr, List.append_assoc]
    rfl

/-- Building a Python dict from pairs with unique keys keeps them verbatim. -/
theorem dictOfPairs_eq_self (ps : List (String × α))
    (h : (ps.map Prod.fst).Nodup) : dictOfPairs ps = ps := by
  have := foldl_dictSet_eq_append ps [] h (by simp)
  simpa [dictOfPairs] using this

/-- First-match lookup finds the unique pair when keys are unique. -/
theorem pyGet_of_mem_nodup (ps : List (String × α))
    (h : (ps.map Prod.fst).Nodup) (k : String) (v : α) (hm : (k, v) ∈ ps) :
    pyGet ps k = some v := by
  induction ps with
  | nil => simp at hm
  | cons p rest ih =>
    obtain ⟨k2, w⟩ := p
    simp only [List.map_cons, List.nodup_cons] at h
    rcases List.mem_cons.1 hm with he | hr
    · injection he with e1 e2
      subst e1; subst e2
      simp [pyGet]
    · have hk : k ∈ rest.map Prod.fst :=
        List.mem_map.2 ⟨(k, v), hr, rfl⟩
      have hne : ¬ k2 = k := fun e => h.1 (e ▸ hk)
      simp [pyGet, hne, ih h.2 hr]

/-- Inserting one element grows the length by one. -/
theorem length_insertBy (le : α → α → Bool) (x : α) (l : List α) :
    (insertBy le x l).length = l.length + 1 := by
  induction l with
  | nil => rfl
  | cons y ys ih => by_cases h : le x y <;> simp [insertBy, h, ih]

/-- Insertion sort preserves length. -/
theorem length_sortBy (le : α → α → Bool) (l : List α) :
    (sortBy le l).length = l.length := by
  induction l with
  | nil => rfl
  | cons y ys ih =>
    show (insertBy le y (sortBy le ys)).length = ys.length + 1
    rw [length_insertBy, ih]

/-- Insertion adds exactly the inserted element. -/
theorem mem_insertBy (le : α → α → Bool) (x a : α) (l : List α) :
    a ∈ insertBy le x l ↔ a = x ∨ a ∈ l := by
  induction l with
  | nil => simp [insertBy]
  | cons y ys ih =>
    by_cases h : le x y
    · simp [insertBy, h]
    · simp [insertBy, h, ih]
      tauto

/-- Insertion sort preserves membership. -/
theorem mem_sortBy (le : α → α → Bool) (a : α) (l : List α) :
    a ∈ sortBy le l ↔ a ∈ l := by
  induction l with
  | nil => simp [sortBy]
  | cons y ys ih =>
    show a ∈ insertBy le y (sortBy le ys) ↔ _
    rw [mem_insertBy]
    simp [ih]

/-- An `enum` entry carries an in-range position and an element of the list. -/
theorem enum_idx_lt (l : List α) (p : Nat × α) (h : p ∈ l.enum) :
    p.1 < l.length ∧ p.2 ∈ l := by
  obtain ⟨i, a⟩ := p
  rw [List.enum_eq_zip_range] at h
  have h2 := List.of_mem_zip h
  exact ⟨List.mem_range.1 h2.1, h2.2⟩

/-- The modelled flat index returns exactly `k` slots (hits plus padding). -/
theorem length_indexFlatSearch (xb : List Vec) (q : Vec) (k : Nat) :
    (indexFlatSearch xb q k).length = k := by
  unfold indexFlatSearch
  simp only [List.length_append, List.length_take, List.length_replicate,
    length_sortBy, List.length_map, List.enum_length]
  omega

/-- Every slot of the modelled flat index either is `-1` padding or addresses
a stored row. -/
theorem indexFlatSearch_idx (xb : List Vec) (q : Vec) (k : Nat)
    (p : ScoreRep × Int) (hp : p ∈ indexFlatSearch xb q k) :
    p.2 = -1 ∨ (0 ≤ p.2 ∧ p.2 < (xb.length : Int)) := by
  unfold indexFlatSearch at hp
  rcases List.mem_append.1 hp with h | h
  · right
    have h2 := (mem_sortBy _ _ _).1 (List.mem_of_mem_take h)
    rcases List.mem_map.1 h2 with ⟨pe, hpe, he⟩
    have hb := enum_idx_lt _ _ hpe
    have : p.2 = (pe.1 : Int) := by rw [← he]
    rw [this]
    exact ⟨Int.ofNat_nonneg pe.1, by exact_mod_cast hb.1⟩
  · left
    have := List.eq_of_mem_replicate h
    rw [this]

/-- When `k` does not exceed the physical row count there is no padding: every
slot addresses a stored row. -/
theorem indexFlatSearch_idx_of_le (xb : List Vec) (q : Vec) (k : Nat)
    (hk : k ≤ xb.length) (p : ScoreRep × Int)
    (hp : p ∈ indexFlatSearch xb q k) :
    0 ≤ p.2 ∧ p.2 < (xb.length : Int) := by
  have hpad : k - (List.take k (sortBy candBefore
      (List.map (fun p => ((dot q p.2, dot p.2 p.2), (p.1 : Int)))
        xb.enum))).length = 0 := by
    simp only [List.length_take, length_sortBy, List.length_map, List.enum_length]
    omega
  unfold indexFlatSearch at hp
  dsimp only at hp
  rw [hpad, List.replicate_zero, List.append_nil] at hp
  have h2 := (mem_sortBy _ _ _).1 (List.mem_of_mem_take hp)
  rcases List.mem_map.1 h2 with ⟨pe, hpe, he⟩
  have hb := enum_idx_lt _ _ hpe
  have : p.2 = (pe.1 : Int) := by rw [← he]
  rw [this]
  exact ⟨Int.ofNat_nonneg pe.1, by exact_mod_cast hb.1⟩

/-- Soundness of the search accumulation loop: any result not already in the
accumulator was appended from a candidate slot, hence names a stored id that
is not tombstoned, carries that id's stored metadata dict, and passes the
filters whenever they are truthy. -/
theorem searchLoop_sound (ids : List String) (md : List (String × Meta))
    (del : List String) (f : Option (List (String × PyVal))) (k : Nat) :
    ∀ (cands : List (ScoreRep × Int)) (acc : List SearchResult)
      (r : SearchResult),
      (∀ p ∈ cands, p.2 = -1 ∨ 0 ≤ p.2) →
      r ∈ searchLoop ids md del f k cands acc →
      r ∈ acc ∨
      (r.id ∈ ids ∧ r.id ∉ del ∧ r.metadata = pyGetD md r.id [] ∧
       (filtersTruthy f = true → metaMatches r.metadata (f.getD []) = true)) := by
  intro cands
  induction cands with
  | nil =>
    intro acc r _ hr
    left
    simpa [searchLoop] using hr
  | cons c rest ih =>
    intro acc r hc hr
    obtain ⟨score, idx⟩ := c
    have hctail : ∀ p ∈ rest, p.2 = -1 ∨ 0 ≤ p.2 :=
      fun p hp => hc p (List.mem_cons_of_mem _ hp)
    rw [searchLoop] at hr
    by_cases h1 : idx = -1
    · rw [if_pos h1] at hr
      exact ih acc r hctail hr
    rw [if_neg h1] at hr
    by_cases h2 : (ids.length : Int) ≤ idx
    · rw [if_pos h2] at hr
      exact ih acc r hctail hr
    rw [if_neg h2] at hr
    dsimp only at hr
    by_cases h3 : ((ids.get? idx.toNat).getD "") ∈ del
    · rw [if_pos h3] at hr
      exact ih acc r hctail hr
    rw [if_neg h3] at hr
    by_cases h4 : (filtersTruthy f &&
        !(metaMatches (pyGetD md ((ids.get? idx.toNat).getD "") []) (f.getD []))) = true
    · rw [if_pos h4] at hr
      exact ih acc r hctail hr
    rw [if_neg h4] at hr
    have hidx : 0 ≤ idx := by
      rcases hc (score, idx) (List.mem_cons_self ..) with h | h
      · exact absurd h h1
      · exact h
    have hlt : idx.toNat < ids.length := by omega
    have hget : (ids.get? idx.toNat).getD "" = ids.get ⟨idx.toNat, hlt⟩ := by
      rw [List.get?_eq_get hlt]
      rfl
    have hnew : (⟨(ids.get? idx.toNat).getD "", score,
        pyGetD md ((ids.get? idx.toNat).getD "") []⟩ : SearchResult).id ∈ ids ∧
        (⟨(ids.get? idx.toNat).getD "", score,
          pyGetD md ((ids.get? idx.toNat).getD "") []⟩ : SearchResult).id ∉ del ∧
        (⟨(ids.get? idx.toNat).getD "", score,
          pyGetD md ((ids.get? idx.toNat).getD "") []⟩ : SearchResult).metadata =
          pyGetD md ((ids.get? idx.toNat).getD "") [] ∧
        (filtersTruthy f = true →
          metaMatches (pyGetD md ((ids.get? idx.toNat).getD "") [])
            (f.getD []) = true) := by
      refine ⟨?_, h3, rfl, ?_⟩
      · rw [hget]
        exact List.get_mem ids _ _
      · intro ht
        by_contra hm
        apply h4
        rw [Bool.and_eq_true]
        refine ⟨ht, ?_⟩
        simp only [Bool.not_eq_true] at hm
        simpa using hm
    by_cases h5 : k ≤ ((⟨(ids.get? idx.toNat).getD "", score,
        pyGetD md ((ids.get? idx.toNat).getD "") []⟩ : SearchResult) :: acc).length
    · rw [if_pos h5] at hr
      rcases List.mem_cons.1 (List.mem_reverse.1 hr) with he | hacc
      · right
        rw [he]
        exact hnew
      · left
        exact hacc
    · rw [if_neg h5] at hr
      rcases ih _ r hctail hr with hacc2 | hprops
      · rcases List.mem_cons.1 hacc2 with he | hacc
        · right
          rw [he]
          exact hnew
        · left
          exact hacc
      · right
        exact hprops

/-- The loop stops appending once `top_k` results are collected, so it never
returns more than `top_k` results when started below the bound. -/
theorem searchLoop_length_le (ids : List String) (md : List (String × Meta))
    (del : List String) (f : Option (List (String × PyVal))) (k : Nat) :
    ∀ (cands : List (ScoreRep × Int)) (acc : List SearchResult),
      acc.length < k →
      (searchLoop ids md del f k cands acc).length ≤ k := by
  intro cands
  induction cands with
  | nil =>
    intro acc h
    rw [searchLoop]
    simpa using Nat.le_of_lt h
  | cons c rest ih =>
    intro acc h
    obtain ⟨score, idx⟩ := c
    rw [searchLoop]
    by_cases h1 : idx = -1
    · rw [if_pos h1]; exact ih acc h
    rw [if_neg h1]
    by_cases h2 : (ids.length : Int) ≤ idx
    · rw [if_pos h2]; exact ih acc h
    rw [if_neg h2]
    dsimp only
    by_cases h3 : ((ids.get? idx.toNat).getD "") ∈ del
    · rw [if_pos h3]; exact ih acc h
    rw [if_neg h3]
    by_cases h4 : (filtersTruthy f &&
        !(metaMatches (pyGetD md ((ids.get? idx.toNat).getD "") []) (f.getD []))) = true
    · rw [if_pos h4]; exact ih acc h
    rw [if_neg h4]
    by_cases h5 : k ≤ ((⟨(ids.get? idx.toNat).getD "", score,
        pyGetD md ((ids.get? idx.toNat).getD "") []⟩ : SearchResult) :: acc).length
    · rw [if_pos h5]
      simp only [List.length_reverse, List.length_cons]
      omega
    · rw [if_neg h5]
      apply ih
      simp only [List.length_cons] at h5 ⊢
      omega

/-- With no filters and only live, in-range candidate slots, the loop returns
exactly `min top_k` of however many candidates it was given. -/
theorem searchLoop_none_length (ids : List String) (md : List (String × Meta))
    (del : List String) (k : Nat) :
    ∀ (cands : List (ScoreRep × Int)) (acc : List SearchResult),
      (∀ p ∈ cands, 0 ≤ p.2 ∧ p.2 < (ids.length : Int) ∧
        ((ids.get? p.2.toNat).getD "") ∉ del) →
      acc.length < k →
      (searchLoop ids md del Option.none k cands acc).length =
        min k (acc.length + cands.length) := by
  intro cands
  induction cands with
  | nil =>
    intro acc _ h
    rw [searchLoop]
    simp only [List.length_reverse, List.length_nil, Nat.add_zero]
    omega
  | cons c rest ih =>
    intro acc hc h
    obtain ⟨score, idx⟩ := c
    have hc0 := hc (score, idx) (List.mem_cons_self ..)
    rw [searchLoop]
    have h1 : ¬ idx = -1 := by omega
    rw [if_neg h1, if_neg (not_le.2 hc0.2.1)]
    dsimp only
    rw [if_neg hc0.2.2]
    have hfil : ¬ (filtersTruthy Option.none &&
        !(metaMatches (pyGetD md ((ids.get? idx.toNat).getD "") [])
          ((Option.none : Option (List (String × PyVal))).getD []))) = true := by
      simp [filtersTruthy]
    rw [if_neg hfil]
    by_cases h5 : k ≤ ((⟨(ids.get? idx.toNat).getD "", score,
        pyGetD md ((ids.get? idx.toNat).getD "") []⟩ : SearchResult) :: acc).length
    · rw [if_pos h5]
      simp only [List.length_reverse, List.length_cons] at h5 ⊢
      omega
    · rw [if_neg h5]
      rw [ih _ (fun p hp => hc p (List.mem_cons_of_mem _ hp))
        (by simp only [List.length_cons] at h5 ⊢; omega)]
      simp only [List.length_cons]
      omega

/-- One delete iteration never touches the index. -/
theorem deleteStep_index (p : FaissVectorStore × Nat) (i : String) :
    (deleteStep p i).1._index = p.1._index := by
  unfold deleteStep
  split <;> rfl

/-- One delete iteration never touches the id list. -/
theorem deleteStep_ids (p : FaissVectorStore × Nat) (i : String) :
    (deleteStep p i).1._ids = p.1._ids := by
  unfold deleteStep
  split <;> rfl

/-- One delete iteration never touches the metadata dict. -/
theorem deleteStep_metadata (p : FaissVectorStore × Nat) (i : String) :
    (deleteStep p i).1._metadata = p.1._metadata := by
  unfold deleteStep
  split <;> rfl

/-- One delete iteration only ever appends to the tombstone list. -/
theorem deleteStep_deleted_mono (p : FaissVectorStore × Nat) (i : String)
    (x : String) (hx : x ∈ p.1._deleted_ids) :
    x ∈ (deleteStep p i).1._deleted_ids := by
  unfold deleteStep
  split
  · exact List.mem_append_left _ hx
  · exact hx

/-- The whole delete loop preserves index, id list, and metadata, and only
grows the tombstone list. -/
theorem foldl_deleteStep_state (ids : List String) :
    ∀ p : FaissVectorStore × Nat,
      (ids.foldl deleteStep p).1._index = p.1._index ∧
      (ids.foldl deleteStep p).1._ids = p.1._ids ∧
      (ids.foldl deleteStep p).1._metadata = p.1._metadata ∧
      ∀ x ∈ p.1._deleted_ids, x ∈ (ids.foldl deleteStep p).1._deleted_ids := by
  induction ids with
  | nil => exact fun p => ⟨rfl, rfl, rfl, fun x hx => hx⟩
  | cons i rest ih =>
    intro p
    rw [List.foldl_cons]
    rcases ih (deleteStep p i) with ⟨h1, h2, h3, h4⟩
    exact ⟨h1.trans (deleteStep_index p i), h2.trans (deleteStep_ids p i),
      h3.trans (deleteStep_metadata p i),
      fun x hx => h4 x (deleteStep_deleted_mono p i x hx)⟩

/-- The function `delete` preserves the index, the id list, and the metadata dict, and only
grows the tombstone set (vector_store.py, lines 129-135). -/
theorem delete_state (s : FaissVectorStore) (ids : List String) :
    (s.delete ids).1._index = s._index ∧
    (s.delete ids).1._ids = s._ids ∧
    (s.delete ids).1._metadata = s._metadata ∧
    ∀ x ∈ s._deleted_ids, x ∈ (s.delete ids).1._deleted_ids :=
  foldl_deleteStep_state ids (s, 0)

/-- Deleting an id that is a key of the metadata dict tombstones it (or it was
tombstoned already). -/
theorem delete_singleton_marks (s : FaissVectorStore) (id : String)
    (h : (pyGet s._metadata id).isSome = true) :
    id ∈ (s.delete [id]).1._deleted_ids := by
  show id ∈ (deleteStep (s, 0) id).1._deleted_ids
  unfold deleteStep
  by_cases hd : (s._deleted_ids.contains id) = true
  · have hmem : id ∈ s._deleted_ids := by simpa using hd
    rw [if_neg (by simp [h, hmem])]
    exact hmem
  · have hnmem : id ∉ s._deleted_ids := by simpa using hd
    rw [if_pos (by simp [h, hnmem])]
    exact List.mem_append_right _ (List.mem_singleton_self id)

/-- The function `search` reads only the index, id list, metadata, and tombstones. -/
theorem search_congr (s t : FaissVectorStore) (hI : s._index = t._index)
    (hids : s._ids = t._ids) (hmd : s._metadata = t._metadata)
    (hdel : s._deleted_ids = t._deleted_ids) (q : Vec) (k : Nat)
    (f : Option (List (String × PyVal))) :
    s.search q k f = t.search q k f := by
  unfold FaissVectorStore.search
  rw [hI, hids, hmd, hdel]

/-- A tombstoned id never appears among search results. -/
theorem search_excludes_deleted (s : FaissVectorStore) (id : String)
    (hdel : id ∈ s._deleted_ids) (q : Vec) (k : Nat)
    (f : Option (List (String × PyVal))) (r : SearchResult)
    (hr : r ∈ s.search q k f) : r.id ≠ id := by
  unfold FaissVectorStore.search at hr
  cases hI : s._index with
  | none => rw [hI] at hr; simp at hr
  | some xb =>
    rw [hI] at hr
    dsimp only at hr
    rcases searchLoop_sound s._ids s._metadata s._deleted_ids f k _ [] r
      (fun p hp => by
        rcases indexFlatSearch_idx xb q _ p hp with h | h
        · exact Or.inl h
        · exact Or.inr h.1) hr with hacc | hprops
    · simp at hacc
    · intro he
      exact hprops.2.1 (he ▸ hdel)

/-- When no stored id's metadata passes the filter dict, a filtered search
returns the empty list. -/
theorem search_no_match (s : FaissVectorStore) (f : List (String × PyVal))
    (hnm : ∀ id ∈ s._ids, metaMatches (pyGetD s._metadata id []) f = false)
    (q : Vec) (k : Nat) : s.search q k (some f) = [] := by
  unfold FaissVectorStore.search
  cases hI : s._index with
  | none => rfl
  | some xb =>
    dsimp only
    apply List.eq_nil_iff_forall_not_mem.2
    intro r hr
    rcases searchLoop_sound s._ids s._metadata s._deleted_ids (some f) k _ [] r
      (fun p hp => by
        rcases indexFlatSearch_idx xb q _ p hp with h | h
        · exact Or.inl h
        · exact Or.inr h.1) hr with hacc | ⟨hid, _, hmdeq, hmatch⟩
    · simp at hacc
    · by_cases hf : f.isEmpty = true
      · have hfe : f = [] := List.isEmpty_iff.1 hf
        have := hnm r.id hid
        rw [hfe] at this
        simp [metaMatches] at this
      · have ht : filtersTruthy (some f) = true := by
          simp [filtersTruthy, hf]
        have hm := hmatch ht
        rw [hmdeq] at hm
        simp only [Option.getD_some] at hm
        rw [hnm r.id hid] at hm
        exact Bool.false_ne_true hm

/-- The function `dictSet` adds at most the written key. -/
theorem mem_keys_dictSet (d : List (String × α)) (k a : String) (v : α) :
    a ∈ (dictSet d k v).map Prod.fst ↔ a = k ∨ a ∈ d.map Prod.fst := by
  induction d with
  | nil => simp [dictSet]
  | cons p rest ih =>
    obtain ⟨k2, w⟩ := p
    by_cases h : k2 = k
    · subst h
      simp [dictSet]
    · simp [dictSet, h, ih]
      tauto

/-- Folding `dictSet` accumulates exactly the keys of the pairs. -/
theorem mem_keys_foldl_dictSet (ps : List (String × α)) :
    ∀ (d : List (String × α)) (a : String),
      a ∈ (ps.foldl (fun d p => dictSet d p.1 p.2) d).map Prod.fst ↔
        a ∈ d.map Prod.fst ∨ a ∈ ps.map Prod.fst := by
  induction ps with
  | nil => intro d a; simp
  | cons p rest ih =>
    intro d a
    rw [List.foldl_cons, ih, mem_keys_dictSet]
    simp
    tauto

/-- A Python dict built from pairs has exactly the pairs' keys. -/
theorem mem_keys_dictOfPairs (ps : List (String × α)) (a : String) :
    a ∈ (dictOfPairs ps).map Prod.fst ↔ a ∈ ps.map Prod.fst := by
  unfold dictOfPairs
  rw [mem_keys_foldl_dictSet]
  simp

/-- After a well-shaped upsert every supplied id is a key of the rebuilt
metadata dict. -/
theorem upsert_metadata_isSome (ids : List String) (md : List Meta)
    (hlen : md.length = ids.length) (id : String) (hid : id ∈ ids) :
    (pyGet (dictOfPairs (ids.zip md)) id).isSome = true := by
  rw [pyGet_isSome_iff, mem_keys_dictOfPairs,
    List.map_fst_zip ids md (le_of_eq hlen.symm)]
  exact hid

/-- With unique ids, the rebuilt metadata dict maps each supplied id to its
supplied metadata. -/
theorem upsert_metadata_lookup (ids : List String) (md : List Meta)
    (hnd : ids.Nodup) (hlen : md.length = ids.length) (k : String) (v : Meta)
    (hm : (k, v) ∈ ids.zip md) :
    pyGet (dictOfPairs (ids.zip md)) k = some v := by
  have hkeys : (ids.zip md).map Prod.fst = ids :=
    List.map_fst_zip ids md (le_of_eq hlen.symm)
  have hnd2 : ((ids.zip md).map Prod.fst).Nodup := by
    rw [hkeys]
    exact hnd
  rw [dictOfPairs_eq_self _ hnd2]
  exact pyGet_of_mem_nodup _ hnd2 k v hm

/-- With a positive batch size and enough fuel, concatenating the chunks
restores the original list. -/
theorem chunksAux_flatten (bs : Nat) (hbs : 0 < bs) :
    ∀ (fuel : Nat) (l : List α), l.length ≤ fuel →
      (chunksAux bs fuel l).flatten = l := by
  intro fuel
  induction fuel with
  | zero =>
    intro l hl
    have hnil : l = [] := List.eq_nil_of_length_eq_zero (Nat.le_zero.1 hl)
    rw [hnil]
    rfl
  | succ n ih =>
    intro l hl
    cases l with
    | nil => rfl
    | cons x xs =>
      show ((x :: xs).take bs :: chunksAux bs n ((x :: xs).drop bs)).flatten = x :: xs
      rw [List.flatten_cons,
        ih _ (by simp only [List.length_drop, List.length_cons] at hl ⊢; omega)]
      exact List.take_append_drop bs (x :: xs)

/-- The function `chunks` with a positive batch size splits without loss or reordering. -/
theorem chunks_flatten (bs : Nat) (hbs : 0 < bs) (l : List α) :
    (chunks bs l).flatten = l :=
  chunksAux_flatten bs hbs l.length l (le_refl _)

/-- The retry loop makes at most one more call than it has retries left. -/
theorem retryGo_attempts (f : Nat → Except E A) (b M : Rat) :
    ∀ (left attempt : Nat), (retryGo f b M attempt left).2.1 ≤ left + 1 := by
  intro left
  induction left with
  | zero =>
    intro attempt
    unfold retryGo
    cases f attempt <;> simp
  | succ m ih =>
    intro attempt
    unfold retryGo
    cases hf : f attempt with
    | ok a => simp
    | error e =>
      dsimp only
      have := ih (attempt + 1)
      omega

/-- The `n`-th sleep of the retry loop started at `attempt` is
`min(base * 2 ^ (attempt + n), max_delay)`. -/
theorem retryGo_delays (f : Nat → Except E A) (b M : Rat) :
    ∀ (left attempt n : Nat),
      n < (retryGo f b M attempt left).2.2.length →
      (retryGo f b M attempt left).2.2.get? n =
        some (min (b * 2 ^ (attempt + n)) M) := by
  intro left
  induction left with
  | zero =>
    intro attempt n hn
    exfalso
    unfold retryGo at hn
    cases hf : f attempt <;> simp [hf] at hn
  | succ m ih =>
    intro attempt n hn
    unfold retryGo at hn ⊢
    cases hf : f attempt with
    | ok a =>
      rw [hf] at hn
      simp at hn
    | error e =>
      rw [hf] at hn
      simp only [hf]
      cases n with
      | zero => simp
      | succ n2 =>
        simp only [List.get?_cons_succ]
        have hlt : n2 < (retryGo f b M (attempt + 1) m).2.2.length := by
          simp only [List.length_cons] at hn
          omega
        rw [ih (attempt + 1) n2 hlt]
        have harith : attempt + 1 + n2 = attempt + (n2 + 1) := by omega
        rw [harith]

/-- When every call in the retry window fails, the loop's outcome is the
outcome of the last call, unmodified. -/
theorem retryGo_all_fail (f : Nat → Except E A) (b M : Rat) :
    ∀ (left attempt : Nat),
      (∀ i, attempt ≤ i → i ≤ attempt + left → ∀ a, f i ≠ Except.ok a) →
      (retryGo f b M attempt left).1 = f (attempt + left) := by
  intro left
  induction left with
  | zero =>
    intro attempt hfail
    unfold retryGo
    cases hf : f attempt with
    | ok a => exact absurd hf (hfail attempt (le_refl _) (by omega) a)
    | error e => simpa using hf.symm
  | succ m ih =>
    intro attempt hfail
    unfold retryGo
    cases hf : f attempt with
    | ok a => exact absurd hf (hfail attempt (le_refl _) (by omega) a)
    | error e =>
      dsimp only
      have := ih (attempt + 1) (fun i h1 h2 => hfail i (by omega) (by omega))
      rw [this]
      congr 1
      omega

/-- The two artifact paths written by `save` differ. -/
theorem index_meta_path_ne (path : String) :
    path ++ ".index" ≠ path ++ ".meta.json" := by
  intro h
  have hlen := congrArg String.length h
  rw [String.length_append, String.length_append] at hlen
  have h6 : (".index" : String).length = 6 := rfl
  have h10 : (".meta.json" : String).length = 10 := rfl
  omega

/-- C1: the claim says `load` returns `False` and never raises when an
artifact is missing or when the side-car is structurally incomplete.  The
missing-artifact half holds (second conjunct), but on a structurally
incomplete side-car the code raises `NameError` (first conjunct), because
`vector_store.py` calls `logging.getLogger` without ever importing `logging`
— both at the corrupted-meta warning and inside the `except` handler.  The
claim matches the function's own docstring ("False if files don't exist or
are corrupted"), so the missing import is a code bug. -/
theorem C1_load_error_reporting :
    FaissVectorStore.new.load "idx"
      [("idx.index", FileData.indexFile [[1, 0]]),
       ("idx.meta.json", FileData.metaFile
         ⟨some ["a"], some [("a", [])], Option.none, Option.none⟩)] =
      Except.error (PyErr.nameError "logging") ∧
    FaissVectorStore.new.load "idx" [] =
      Except.ok (FaissVectorStore.new, false) := by
  constructor
  · rfl
  · rfl

/-- C2: for a store with a built index, `save(path)` succeeds, a fresh
store's `load(path)` returns `True`, the side-car round-trips the ordered id
list, the metadata map and the tombstone set exactly, and the loaded store's
`search` coincides with the original's for every query, `k`, and filters (in
particular tombstoned ids are excluded in both). -/
theorem C2_roundtrip_persistence (s : FaissVectorStore) (xb : List Vec)
    (hs : s._index = some xb) (path : String) (ch : Option String)
    (fs : FileSystem) :
    ∃ fs2, s.save path ch fs = Except.ok (path, fs2) ∧
      ∃ t, FaissVectorStore.new.load path fs2 = Except.ok (t, true) ∧
        t._ids = s._ids ∧ t._metadata = s._metadata ∧
        t._deleted_ids = s._deleted_ids ∧ t._index = s._index ∧
        ∀ q k f, t.search q k f = s.search q k f := by
  refine ⟨dictSet (dictSet fs (path ++ ".index") (FileData.indexFile xb))
      (path ++ ".meta.json")
      (FileData.metaFile
        ⟨some s._ids, some s._metadata, some s._deleted_ids, some ch⟩),
    ?_, ?_⟩
  · unfold FaissVectorStore.save
    rw [hs]
  · have hgetIdx : pyGet
        (dictSet (dictSet fs (path ++ ".index") (FileData.indexFile xb))
          (path ++ ".meta.json")
          (FileData.metaFile
            ⟨some s._ids, some s._metadata, some s._deleted_ids, some ch⟩))
        (path ++ ".index") = some (FileData.indexFile xb) := by
      rw [pyGet_dictSet_ne _ _ _ _ (index_meta_path_ne path), pyGet_dictSet_self]
    have hgetMeta : pyGet
        (dictSet (dictSet fs (path ++ ".index") (FileData.indexFile xb))
          (path ++ ".meta.json")
          (FileData.metaFile
            ⟨some s._ids, some s._metadata, some s._deleted_ids, some ch⟩))
        (path ++ ".meta.json") = some (FileData.metaFile
          ⟨some s._ids, some s._metadata, some s._deleted_ids, some ch⟩) :=
      pyGet_dictSet_self _ _ _
    refine ⟨{ FaissVectorStore.new with
        _index := some xb, _ids := s._ids, _metadata := s._metadata,
        _deleted_ids := s._deleted_ids, _content_hash := some ch }, ?_,
      rfl, rfl, rfl, hs.symm, ?_⟩
    · unfold FaissVectorStore.load
      dsimp only
      rw [hgetIdx, hgetMeta]
      rfl
    · intro q k f
      apply search_congr
      · rw [hs]
      · rfl
      · rfl
      · rfl

/-- Concrete two-row store used to witness the persistence round-trip. -/
def c2store : FaissVectorStore :=
  (FaissVectorStore.new.upsert ["a", "b"] [[1, 0], [0, 1]] [[], []]).1

/-- C2 witness: the round-trip theorem applied to a concrete two-row store,
an empty directory, and path "p". -/
theorem C2_roundtrip_persistence_witness :
    ∃ fs2, c2store.save "p" Option.none [] = Except.ok ("p", fs2) ∧
      ∃ t, FaissVectorStore.new.load "p" fs2 = Except.ok (t, true) ∧
        t._ids = c2store._ids ∧ t._metadata = c2store._metadata ∧
        t._deleted_ids = c2store._deleted_ids ∧ t._index = c2store._index ∧
        ∀ q k f, t.search q k f = c2store.search q k f :=
  C2_roundtrip_persistence c2store [[1, 0], [0, 1]] rfl "p" Option.none []

/-- Concrete store refuting the exactly-k half of C3: three rows, id "a"
tombstoned. -/
def c3store : FaissVectorStore :=
  ((FaissVectorStore.new.upsert ["a", "b", "c"] [[1, 0], [0, 1], [1, 1]]
    [[], [], []]).1.delete ["a"]).1

/-- C3 counterexample: this store has 2 live (non-tombstoned) vectors, yet an
unfiltered `search(q, 2)` returns only 1 result, because the raw fetch window
of an unfiltered search is exactly `top_k` and the tombstoned id "a" occupies
its top slot — refuting "equals k when unfiltered and the corpus has ≥ k live
vectors". -/
theorem C3_counterexample :
    2 ≤ c3store.liveCount ∧
    (c3store.search [1, 0] 2 Option.none).length = 1 ∧
    ¬ ((c3store.search [1, 0] 2 Option.none).length = 2) := by
  refine ⟨by decide, by decide, by decide⟩

/-- C3 (amended): `search` returns at most `k` results for every query,
`k`, and filters; and it returns exactly `k` results when filters are null,
no id in the store's id list is tombstoned, the id list covers every physical
row, and the store holds at least `k` rows. -/
theorem C3_topk_bound (s : FaissVectorStore) (q : Vec) (k : Nat)
    (f : Option (List (String × PyVal))) :
    (s.search q k f).length ≤ k ∧
    (∀ xb, s._index = some xb → s._ids.length = xb.length →
      (∀ id ∈ s._ids, id ∉ s._deleted_ids) → k ≤ xb.length →
      (s.search q k Option.none).length = k) := by
  constructor
  · unfold FaissVectorStore.search
    cases hI : s._index with
    | none => simp
    | some xb =>
      dsimp only
      by_cases hk : k = 0
      · subst hk
        have hfetch : (if filtersTruthy f = true then 0 * 5 else 0) = 0 := by
          split <;> rfl
        rw [hfetch]
        have hnil : indexFlatSearch xb q 0 = [] :=
          List.length_eq_zero.1 (length_indexFlatSearch xb q 0)
        rw [hnil, searchLoop]
        simp
      · exact searchLoop_length_le s._ids s._metadata s._deleted_ids f k _ []
          (by simp only [List.length_nil]; omega)
  · intro xb hI hlen hdel hk
    unfold FaissVectorStore.search
    rw [hI]
    dsimp only
    have hfetch : (if filtersTruthy
        (Option.none : Option (List (String × PyVal))) = true
        then k * 5 else k) = k := rfl
    rw [hfetch]
    by_cases hk0 : k = 0
    · subst hk0
      have hnil : indexFlatSearch xb q 0 = [] :=
        List.length_eq_zero.1 (length_indexFlatSearch xb q 0)
      rw [hnil, searchLoop]
      simp
    · have hcands : ∀ p ∈ indexFlatSearch xb q k,
          0 ≤ p.2 ∧ p.2 < (s._ids.length : Int) ∧
          ((s._ids.get? p.2.toNat).getD "") ∉ s._deleted_ids := by
        intro p hp
        have h2 := indexFlatSearch_idx_of_le xb q k hk p hp
        have hlt : p.2.toNat < s._ids.length := by
          rcases h2 with ⟨h2a, h2b⟩
          omega
        refine ⟨h2.1, by rw [hlen]; exact h2.2, ?_⟩
        rw [List.get?_eq_get hlt]
        exact hdel _ (List.get_mem s._ids _ hlt)
      rw [searchLoop_none_length s._ids s._metadata s._deleted_ids k _ []
        hcands (by simp only [List.length_nil]; omega)]
      rw [List.length_nil, length_indexFlatSearch]
      omega

/-- Concrete two-row store with no tombstones, used to witness the amended
top-k bound. -/
def c3store2 : FaissVectorStore :=
  (FaissVectorStore.new.upsert ["a", "b"] [[1, 0], [0, 1]] [[], []]).1

/-- C3 witness: the amended theorem applied to a concrete two-row store
with k = 1 gives both the bound and the exact count. -/
theorem C3_topk_bound_witness :
    (c3store2.search [1, 0] 1 Option.none).length ≤ 1 ∧
    (c3store2.search [1, 0] 1 Option.none).length = 1 := by
  refine ⟨(C3_topk_bound c3store2 [1, 0] 1 Option.none).1, ?_⟩
  exact (C3_topk_bound c3store2 [1, 0] 1 Option.none).2 [[1, 0], [0, 1]]
    rfl (by decide) (by decide) (by decide)

/-- C4: after tombstoning an id that was previously upserted (with its
metadata), no subsequent search — any query, top_k, filters — returns that
id, while `total_vectors` is unchanged by the delete: it reports the
physical index count, not the logically-live count. -/
theorem C4_tombstone_exclusion (s0 : FaissVectorStore) (ids : List String)
    (emb : List Vec) (md : List Meta) (id : String) (hid : id ∈ ids)
    (hlen : md.length = ids.length) :
    (∀ q k f r,
      r ∈ (((s0.upsert ids emb md).1.delete [id]).1.search q k f) →
      r.id ≠ id) ∧
    ((s0.upsert ids emb md).1.delete [id]).1.total_vectors =
      (s0.upsert ids emb md).1.total_vectors := by
  have hsome : (pyGet (s0.upsert ids emb md).1._metadata id).isSome = true :=
    upsert_metadata_isSome ids md hlen id hid
  constructor
  · intro q k f r hr
    exact search_excludes_deleted _ id
      (delete_singleton_marks _ id hsome) q k f r hr
  · unfold FaissVectorStore.total_vectors
    rw [(delete_state (s0.upsert ids emb md).1 [id]).1]

/-- C4 witness: in a concrete two-row store with "a" deleted, the search
result "b" is not "a", and total_vectors is unchanged by the delete. -/
theorem C4_tombstone_exclusion_witness :
    (⟨"b", (0, 1), []⟩ : SearchResult).id ≠ "a" ∧
    ((FaissVectorStore.new.upsert ["a", "b"] [[1, 0], [0, 1]]
        [[], []]).1.delete ["a"]).1.total_vectors =
      (FaissVectorStore.new.upsert ["a", "b"] [[1, 0], [0, 1]]
        [[], []]).1.total_vectors := by
  have h := C4_tombstone_exclusion FaissVectorStore.new ["a", "b"]
    [[1, 0], [0, 1]] [[], []] "a" (by decide) (by decide)
  exact ⟨h.1 [1, 0] 2 Option.none ⟨"b", (0, 1), []⟩ (by decide), h.2⟩

/-- C5: every result of a filtered search has metadata equal to the filter
on every filter key (conjunctive exact match), and a filter matching no
stored document yields the empty list, not an error. -/
theorem C5_filter_correctness (s : FaissVectorStore) (q : Vec) (k : Nat)
    (f : List (String × PyVal)) :
    (∀ r ∈ s.search q k (some f), ∀ key v, (key, v) ∈ f →
      pyGetD r.metadata key PyVal.none = v) ∧
    ((∀ id ∈ s._ids, metaMatches (pyGetD s._metadata id []) f = false) →
      s.search q k (some f) = []) := by
  constructor
  · intro r hr key v hkv
    have hne : f ≠ [] := by
      rintro rfl
      simp at hkv
    have ht : filtersTruthy (some f) = true := by
      simp [filtersTruthy, hne]
    unfold FaissVectorStore.search at hr
    cases hI : s._index with
    | none =>
      rw [hI] at hr
      simp at hr
    | some xb =>
      rw [hI] at hr
      dsimp only at hr
      rcases searchLoop_sound s._ids s._metadata s._deleted_ids (some f) k _ [] r
        (fun p hp => by
          rcases indexFlatSearch_idx xb q _ p hp with h | h
          · exact Or.inl h
          · exact Or.inr h.1) hr with hacc | ⟨_, _, _, hmatch⟩
      · simp at hacc
      · have hm := hmatch ht
        simp only [Option.getD_some] at hm
        rw [metaMatches, List.all_eq_true] at hm
        have := hm (key, v) hkv
        exact beq_iff_eq.1 this
  · intro hnm
    exact search_no_match s f hnm q k

/-- Concrete three-row store with metadata tags, used to witness filter
correctness. -/
def c5store : FaissVectorStore :=
  (FaissVectorStore.new.upsert ["a", "b", "c"] [[1, 0], [0, 1], [1, 1]]
    [[("t", PyVal.str "x")], [("t", PyVal.str "y")],
     [("t", PyVal.str "x")]]).1

/-- C5 witness: the concrete result "a" of a filtered search satisfies the
filter key, and a filter matching nothing returns []. -/
theorem C5_filter_correctness_witness :
    pyGetD (⟨"a", (1, 1), [("t", PyVal.str "x")]⟩ : SearchResult).metadata
      "t" PyVal.none = PyVal.str "x" ∧
    c5store.search [1, 0] 2 (some [("t", PyVal.str "zzz")]) = [] := by
  refine ⟨?_, ?_⟩
  · exact (C5_filter_correctness c5store [1, 0] 2 [("t", PyVal.str "x")]).1
      ⟨"a", (1, 1), [("t", PyVal.str "x")]⟩ (by decide) "t" (PyVal.str "x")
      (by decide)
  · exact (C5_filter_correctness c5store [1, 0] 2 [("t", PyVal.str "zzz")]).2
      (by decide)

/-- C6: a retry-wrapped call makes at most `max_retries + 1` attempts, the
delay before the `(n+1)`-th retry is `min(base_delay * 2 ^ n, max_delay)`,
and when every attempt fails the final outcome is the last call's error,
unmodified. -/
theorem C6_retry_backoff (max_retries : Nat) (base_delay max_delay : Rat)
    (f : Nat → Except E A) :
    (retry_with_backoff max_retries base_delay max_delay f).2.1 ≤
      max_retries + 1 ∧
    (∀ n, n < (retry_with_backoff max_retries base_delay max_delay f).2.2.length →
      (retry_with_backoff max_retries base_delay max_delay f).2.2.get? n =
        some (min (base_delay * 2 ^ n) max_delay)) ∧
    ((∀ i, i ≤ max_retries → ∀ a, f i ≠ Except.ok a) →
      (retry_with_backoff max_retries base_delay max_delay f).1 =
        f max_retries ∧
      ∃ e, f max_retries = Except.error e) := by
  refine ⟨retryGo_attempts f base_delay max_delay max_retries 0, ?_, ?_⟩
  · intro n hn
    have h := retryGo_delays f base_delay max_delay max_retries 0 n hn
    simpa using h
  · intro hfail
    constructor
    · have h := retryGo_all_fail f base_delay max_delay max_retries 0
        (fun i h1 h2 => hfail i (by omega))
      simpa using h
    · cases hf : f max_retries with
      | ok a => exact absurd hf (hfail max_retries (le_refl _) a)
      | error e => exact ⟨e, rfl⟩

/-- C6 witness: three retries around an always-failing call make four
attempts, the third sleep is `min(1 * 2 ^ 2, 60)`, and the final outcome is
the last error. -/
theorem C6_retry_backoff_witness :
    (retry_with_backoff 3 1 60
      (fun _ => (Except.error "boom" : Except String Nat))).2.1 ≤ 4 ∧
    (retry_with_backoff 3 1 60
      (fun _ => (Except.error "boom" : Except String Nat))).2.2.get? 2 =
      some (min ((1 : Rat) * 2 ^ 2) 60) ∧
    (retry_with_backoff 3 1 60
      (fun _ => (Except.error "boom" : Except String Nat))).1 =
      Except.error "boom" := by
  have h := C6_retry_backoff 3 1 60
    (fun _ => (Except.error "boom" : Except String Nat))
  refine ⟨h.1, h.2.1 2 (by decide), ?_⟩
  have h3 := h.2.2 (fun i _ a hok => Except.noConfusion hok)
  exact h3.1

/-- C7 counterexample: with batch_size 0 and more texts than fit in one
batch, `range(0, len(texts), 0)` raises ValueError, so the call does not
return the single-call embedding — refuting "every batch size". -/
theorem C7_counterexample :
    get_embeddings (fun ts => ts.map (fun _ => ([] : Vec))) ["a", "b"] 0 ≠
      Except.ok ((fun ts => ts.map (fun _ => ([] : Vec))) ["a", "b"]) :=
  fun h => Except.noConfusion h

/-- C7 (amended): for every list of texts and every positive batch size,
given a provider whose embed maps each text independently, batched
embedding equals the single-call embedding of the whole list: same rows,
and row i is the embedding of texts[i] for every i. -/
theorem C7_batch_equivalence (embOne : String → Vec)
    (embed : List String → List Vec)
    (hrow : ∀ ts, embed ts = ts.map embOne)
    (texts : List String) (batch_size : Nat) (hbs : 0 < batch_size) :
    get_embeddings embed texts batch_size = Except.ok (embed texts) ∧
    (embed texts).length = texts.length ∧
    ∀ i, (embed texts).get? i = (texts.get? i).map embOne := by
  refine ⟨?_, ?_, ?_⟩
  · unfold get_embeddings
    by_cases hle : texts.length ≤ batch_size
    · rw [if_pos hle]
    · rw [if_neg hle, if_neg (by omega)]
      congr 1
      calc ((chunks batch_size texts).map embed).flatten
          = ((chunks batch_size texts).map (fun c => c.map embOne)).flatten := by
            congr 1
            exact List.map_congr_left (fun c _ => hrow c)
        _ = ((chunks batch_size texts).flatten).map embOne :=
            (List.map_flatten _ _).symm
        _ = texts.map embOne := by rw [chunks_flatten _ hbs]
        _ = embed texts := (hrow texts).symm
  · rw [hrow]
    exact List.length_map texts embOne
  · intro i
    rw [hrow]
    exact List.get?_map embOne texts i

/-- C7 witness: the amended equivalence at a concrete three-text list and
batch size 2 with a constant row embedding. -/
theorem C7_batch_equivalence_witness :
    get_embeddings (fun ts => ts.map (fun _ => ([1] : Vec))) ["a", "b", "c"] 2 =
      Except.ok ((fun ts => ts.map (fun _ => ([1] : Vec))) ["a", "b", "c"]) :=
  (C7_batch_equivalence (fun _ => ([1] : Vec))
    (fun ts => ts.map (fun _ => ([1] : Vec))) (fun _ => rfl)
    ["a", "b", "c"] 2 (by decide)).1

/-- C8: `upsert` replaces the searchable state with exactly the supplied
corpus: the returned count is `len(ids)`, the id list becomes `ids`, the
index holds exactly the supplied rows, each id maps to its supplied metadata
(under the unique-ids precondition), and no id is duplicated — so
re-upserting an existing doc_id replaces its entry rather than duplicating
it. -/
theorem C8_upsert_replaces (s : FaissVectorStore) (ids : List String)
    (emb : List Vec) (md : List Meta) (hnd : ids.Nodup)
    (hlen : md.length = ids.length) :
    (s.upsert ids emb md).2 = ids.length ∧
    (s.upsert ids emb md).1._ids = ids ∧
    (s.upsert ids emb md).1._index = some emb ∧
    (∀ p ∈ ids.zip md,
      pyGet (s.upsert ids emb md).1._metadata p.1 = some p.2) ∧
    (∀ id, ((s.upsert ids emb md).1._ids).count id ≤ 1) := by
  refine ⟨rfl, rfl, rfl, ?_, ?_⟩
  · intro p hp
    exact upsert_metadata_lookup ids md hnd hlen p.1 p.2 hp
  · intro id
    exact List.nodup_iff_count_le_one.1 hnd id

/-- C8 witness: the replacement contract at a concrete two-document corpus
(one of whose ids was already present in the store being re-upserted). -/
theorem C8_upsert_replaces_witness :
    (c2store.upsert ["a", "b"] [[2, 0], [0, 2]]
      [[("k", PyVal.int 1)], [("k", PyVal.int 2)]]).2 =
      (["a", "b"] : List String).length ∧
    (c2store.upsert ["a", "b"] [[2, 0], [0, 2]]
      [[("k", PyVal.int 1)], [("k", PyVal.int 2)]]).1._ids = ["a", "b"] ∧
    (c2store.upsert ["a", "b"] [[2, 0], [0, 2]]
      [[("k", PyVal.int 1)], [("k", PyVal.int 2)]]).1._index =
      some [[2, 0], [0, 2]] ∧
    (∀ p ∈ (["a", "b"] : List String).zip
        [[("k", PyVal.int 1)], [("k", PyVal.int 2)]],
      pyGet (c2store.upsert ["a", "b"] [[2, 0], [0, 2]]
        [[("k", PyVal.int 1)], [("k", PyVal.int 2)]]).1._metadata p.1 =
        some p.2) ∧
    (∀ id, ((c2store.upsert ["a", "b"] [[2, 0], [0, 2]]
      [[("k", PyVal.int 1)], [("k", PyVal.int 2)]]).1._ids).count id ≤ 1) :=
  C8_upsert_replaces c2store ["a", "b"] [[2, 0], [0, 2]]
    [[("k", PyVal.int 1)], [("k", PyVal.int 2)]] (by decide) (by decide)

/-- C9: normalization is idempotent — normalizing an already-normalized
document returns it unchanged — and the output's nested metadata dict has
exactly the eight enumerated keys, each carrying the source metadata value
or the explicit `None` marker when absent.  (The embedding is functional, so
the output is a new value and the input is never mutated.) -/
theorem C9_normalize_idempotent (d d2 : PyDoc) (em : List (String × PyVal))
    (hm : (pyGet d "metadata").getD (DocVal.dict []) = DocVal.dict em)
    (h : normalize_document d = Except.ok d2) :
    normalize_document d2 = Except.ok d2 ∧
    pyGet d2 "metadata" = some (DocVal.dict (metadata_keys.map
      (fun k => (k, (pyGet em k).getD PyVal.none)))) ∧
    (metadata_keys.map
      (fun k => (k, (pyGet em k).getD PyVal.none))).map Prod.fst =
      metadata_keys := by
  unfold normalize_document at h
  rw [hm] at h
  dsimp only at h
  injection h with h2
  subst h2
  refine ⟨?_, ?_, ?_⟩
  · rfl
  · rfl
  · simp [metadata_keys]

/-- C9 witness: idempotence and output shape at a concrete document whose
metadata supplies one of the eight keys. -/
theorem C9_normalize_idempotent_witness :
    normalize_document
      [("doc_id", DocVal.prim (PyVal.str "d1")),
       ("source", DocVal.prim (PyVal.str "cuad")),
       ("doc_type", DocVal.prim (PyVal.str "clause")),
       ("title", DocVal.prim (PyVal.str "t")),
       ("text", DocVal.prim (PyVal.str "x")),
       ("metadata", DocVal.dict (metadata_keys.map
         (fun k => (k, (pyGet [("category", PyVal.str "ip")] k).getD
           PyVal.none))))] =
      Except.ok
        [("doc_id", DocVal.prim (PyVal.str "d1")),
         ("source", DocVal.prim (PyVal.str "cuad")),
         ("doc_type", DocVal.prim (PyVal.str "clause")),
         ("title", DocVal.prim (PyVal.str "t")),
         ("text", DocVal.prim (PyVal.str "x")),
         ("metadata", DocVal.dict (metadata_keys.map
           (fun k => (k, (pyGet [("category", PyVal.str "ip")] k).getD
             PyVal.none))))] :=
  (C9_normalize_idempotent
    [("doc_id", DocVal.prim (PyVal.str "d1")),
     ("source", DocVal.prim (PyVal.str "cuad")),
     ("doc_type", DocVal.prim (PyVal.str "clause")),
     ("title", DocVal.prim (PyVal.str "t")),
     ("text", DocVal.prim (PyVal.str "x")),
     ("metadata", DocVal.dict [("category", PyVal.str "ip")])]
    _ [("category", PyVal.str "ip")] rfl rfl).1

/-- C10: upsert preserves the tombstone set verbatim and delete only grows
it; in particular an id tombstoned before a full re-upsert (whose ids
include it) stays tombstoned, so search still never returns it. -/
theorem C10_tombstones_persist (s : FaissVectorStore) (ids : List String)
    (emb : List Vec) (md : List Meta) (dels : List String) (id : String) :
    (s.upsert ids emb md).1._deleted_ids = s._deleted_ids ∧
    (∀ x ∈ s._deleted_ids, x ∈ (s.delete dels).1._deleted_ids) ∧
    ((pyGet s._metadata id).isSome = true →
      ∀ q k f r,
        r ∈ (((s.delete [id]).1.upsert ids emb md).1.search q k f) →
        r.id ≠ id) := by
  refine ⟨rfl, (delete_state s dels).2.2.2, ?_⟩
  intro hsome q k f r hr
  have hmark : id ∈ ((s.delete [id]).1.upsert ids emb md).1._deleted_ids :=
    delete_singleton_marks s id hsome
  exact search_excludes_deleted ((s.delete [id]).1.upsert ids emb md).1 id
    hmark q k f r hr

/-- Concrete two-row store used to witness tombstone persistence. -/
def c10store : FaissVectorStore :=
  (FaissVectorStore.new.upsert ["a", "b"] [[1, 0], [0, 1]] [[], []]).1

/-- C10 witness: after delete("a") then a full re-upsert including "a", the
concrete search result is not "a", and the re-upsert left the tombstone set
unchanged. -/
theorem C10_tombstones_persist_witness :
    (⟨"b", (0, 1), []⟩ : SearchResult).id ≠ "a" ∧
    (c10store.upsert ["a", "b"] [[1, 0], [0, 1]] [[], []]).1._deleted_ids =
      c10store._deleted_ids := by
  have h := C10_tombstones_persist c10store ["a", "b"] [[1, 0], [0, 1]]
    [[], []] [] "a"
  exact ⟨h.2.2 (by decide) [1, 0] 2 Option.none ⟨"b", (0, 1), []⟩ (by decide),
    h.1⟩

end LegalRag
